import Mathlib

/-!
Verification of the symbolic-expression utilities in
`src/main/geo/generate/python/utilsymbolic.py` (functions `expandPower`,
`extractVarEq` and `simplifyExpanded`).

Strings are modelled as `List Char` (`Str`); the Python string operations
used by the source (`find`, `replace`, `split`, slicing, `in`) are embedded
below with Python's semantics.  Fallible steps (out-of-range indexing such
as `bestVar[0]`, `int()` on a non-digit, unbounded recursion) are modelled
in `Except Err` with an explicit fuel parameter for the recursive
`simplifyExpanded`; `Err.outOfFuel` for every fuel value renders Python's
non-termination (infinite recursion).

The external Sage call `expression.expand()` (line 105) is a third-party
CAS capability, not part of this repository; following the spec it is
treated as an injected identity on already-expanded input, so the embedded
`extractVarEq` receives the expanded string directly.

Python 2 `dict` iteration order (used at line 188 to pick `bestVar`) is
implementation-defined; it is modelled as insertion order.  Every concrete
evaluation below has a unique maximum in the frequency map, so no result
depends on this modelling choice.
-/

abbrev Str := List Char

def str (s : String) : Str := s.data

inductive Err where
  | indexError : Err
  | valueError : Err
  | outOfFuel : Err
deriving DecidableEq

/-- Python `s.split(sep)` for a one-character separator: keeps empty pieces,
`''.split(sep) = ['']`. -/
def splitOnChar (sep : Char) : Str → List Str
  | [] => [[]]
  | a :: rest =>
    if a = sep then [] :: splitOnChar sep rest
    else
      match splitOnChar sep rest with
      | [] => [[a]]
      | h :: t => (a :: h) :: t

/-- Python `s.find(p)`: index of the first occurrence of `p` in `s`, `none`
for Python's `-1`.  `''.find('') = 0` and `s.find('') = 0`. -/
def findSub (p : Str) : Str → Option Nat
  | [] => if p = [] then some 0 else none
  | a :: rest =>
    if p.isPrefixOf (a :: rest) then some 0 else (findSub p rest).map (· + 1)

/-- Python `p in s` (substring containment test). -/
def occursB (p s : Str) : Bool := (findSub p s).isSome

instance : DecidableEq (Except Err Str)
  | .error e, .error f =>
    if h : e = f then .isTrue (by rw [h])
    else .isFalse (fun hh => h (Except.error.inj hh))
  | .error _, .ok _ => .isFalse Except.noConfusion
  | .ok _, .error _ => .isFalse Except.noConfusion
  | .ok x, .ok y =>
    if h : x = y then .isTrue (by rw [h])
    else .isFalse (fun hh => h (Except.ok.inj hh))

/-- Python `s.replace(p, r)`: replace every non-overlapping occurrence of
`p`, scanning left to right.  When the pattern matches at the head, `r` is
emitted and the remaining `p.length - 1` matched characters are skipped
via the counter (structural recursion on the string).  (Python's
empty-pattern behaviour is not modelled; every pattern used by the source
— `'- '`, `'-*'`, `'-'` — is non-empty.) -/
def repSkip (p r : Str) : Nat → Str → Str
  | _, [] => []
  | 0, a :: rest =>
    if p ≠ [] ∧ p.isPrefixOf (a :: rest) then
      r ++ repSkip p r (p.length - 1) rest
    else
      a :: repSkip p r 0 rest
  | k + 1, _ :: rest => repSkip p r k rest

def replaceAll (p r s : Str) : Str := repSkip p r 0 s

/-- Pieces joined by a separator; Python's `sep.join` shape used to state
what the source's `expression += piece + '*'` / `[:-1]` loops compute. -/
def joinSep (sep : Str) : List Str → Str
  | [] => []
  | [x] => x
  | x :: xs => x ++ sep ++ joinSep sep xs

/-- Effectful map over a list (a Python list comprehension whose body may
raise), first raise wins. -/
def mapME (g : Str → Except Err Str) : List Str → Except Err (List Str)
  | [] => .ok []
  | a :: as =>
    match g a with
    | .error e => .error e
    | .ok b =>
      match mapME g as with
      | .error e => .error e
      | .ok bs => .ok (b :: bs)

/-- Body of the loop of `expandPower` (lines 87-94) for one factor `s`:
`if len(s) >= 3 and s[-2] == '^'` expand `s[:-2]` repeated `int(s[-1])`
times (`expanded = var` then `range(int(s[-1])-1)` appends of `'*'+var`),
else pass the factor through.  `int` on a non-digit raises `ValueError`. -/
def expandFactor (f : Str) : Except Err Str :=
  if 3 ≤ f.length ∧ f.get? (f.length - 2) = some '^' then
    match f.getLast? with
    | some d =>
      if d.isDigit then
        let v := f.take (f.length - 2)
        .ok ((List.range (d.toNat - 48 - 1)).foldl (fun acc _ => acc ++ ['*'] ++ v) v)
      else .error .valueError
    | none => .error .valueError
  else .ok f

/-- Lines 74-95, `expandPower(expression)`: split on `'*'`; if the first
factor starts with `'-'` strip it and remember the sign (`l[0][0]` raises
`IndexError` on an empty first factor); expand each factor, append each
with a trailing `'*'` to the sign, and drop the final character
(`expression[:-1]`). -/
def expandPower (t : Str) : Except Err Str :=
  match splitOnChar '*' t with
  | [] => .error .indexError
  | f :: rest =>
    match f with
    | [] => .error .indexError
    | c :: f2 =>
      let sl : Str × List Str :=
        if c = '-' then (['-'], f2 :: rest) else ([], (c :: f2) :: rest)
      match mapME expandFactor sl.2 with
      | .error e => .error e
      | .ok pieces =>
        .ok ((pieces.foldl (fun acc p => acc ++ p ++ ['*']) sl.1).dropLast)

/-- Line 107: `expression.replace('- ','-').split(' ')`, the additive terms
of the (already expanded) expression. -/
def extractTerms (expression : Str) : List Str :=
  splitOnChar ' ' (replaceAll (str "- ") (str "-") expression)

/-- Line 110 filter for the empty key:
`len(w) != 1 and not any(c in chars for c in w)` with `chars = set('xyz')`. -/
def emptyKeyKeep (w : Str) : Bool :=
  w.length != 1 && !(w.any (fun ch => ch == 'x' || ch == 'y' || ch == 'z'))

/-- Selection predicate worded as the amended empty-key claim: keep a term
iff its length is not 1 and none of its characters is `'x'`, `'y'` or
`'z'`.  Stated independently of line 110's `emptyKeyKeep` and proved equal
to it below. -/
def specEmptyKeyKeep (w : Str) : Bool :=
  w.length != 1 && w.all (fun ch => ch != 'x' && ch != 'y' && ch != 'z')

/-- Line 112: for a term containing the key, delete the first occurrence,
`w[0:w.find(key)] + w[w.find(key)+len(key):]`; `none` for a term the key
does not occur in (such terms are discarded). -/
def keyRemove (key w : Str) : Option Str :=
  match findSub key w with
  | none => none
  | some i => some (w.take i ++ w.drop (i + key.length))

/-- Lines 120-124, the per-term clean-up chain (note the `elif`s: only the
first applicable arm fires):
`'' -> '1'`, `'-' -> '-1'`, strip one trailing `'*'`, else strip one
leading `'*'`. -/
def fixTerm (w : Str) : Str :=
  if w = [] then ['1']
  else if w = ['-'] then ['-', '1']
  else if w.getLast? = some '*' then w.dropLast
  else if w.head? = some '*' then w.tail
  else w

/-- Signed-sum joining loop shared by lines 131-135 and 167-171: append
` - w[1:]` when `w[0] == '-'`, else ` + w`; `w[0]` raises on an empty
term. -/
def signJoin (acc : Str) : List Str → Except Err Str
  | [] => .ok acc
  | w :: ws =>
    match w with
    | [] => .error .indexError
    | ch :: w2 =>
      if ch = '-' then signJoin (acc ++ str " - " ++ w2) ws
      else signJoin (acc ++ str " + " ++ (ch :: w2)) ws

/-- Lines 129-135: `ret = var[0]` then the sign-join loop (`var[0]` raises
on an empty list; in `extractVarEq` that case is already returned at line
116). -/
def joinSigned : List Str → Except Err Str
  | [] => .error .indexError
  | h :: t => signJoin h t

/-- Lines 97-137, `extractVarEq(expression, key)` with the external Sage
`expand()` (line 105) taken as the identity: the argument is the already
expanded sum of terms. -/
def extractVarEq (expression key : Str) : Except Err Str :=
  let s := extractTerms expression
  let var :=
    if key.length = 0 then s.filter emptyKeyKeep
    else s.filterMap (keyRemove key)
  if var.length = 0 then .ok []
  else
    match mapME expandPower ((var.map (replaceAll (str "-*") (str "-"))).map fixTerm) with
    | .error e => .error e
    | .ok var2 => joinSigned var2

/-- Lines 152-160, `removeSubString(text, candidates)`: first candidate
found in `text` is cut out, re-inserting a `'*'` when the candidate both
starts and ends with `'*'`; `text` unchanged when none occurs. -/
def removeSubString (text : Str) : List Str → Str
  | [] => text
  | sp :: rest =>
    match findSub sp text with
    | some i =>
      if sp.head? = some '*' ∧ sp.getLast? = some '*' then
        text.take i ++ ['*'] ++ text.drop (i + sp.length)
      else
        text.take i ++ text.drop (i + sp.length)
    | none => removeSubString text rest

/-- Lines 162-163, `removeVariable(text, s)`: try `'*'+s+'*'`, `s+'*'`,
`'*'+s` in that order. -/
def removeVariable (text sv : Str) : Str :=
  removeSubString text [['*'] ++ sv ++ ['*'], sv ++ ['*'], ['*'] ++ sv]

/-- Lines 165-172, the nested `reconstruct(sequence)`: `sequence[0]` then
the sign-join loop; raises on an empty sequence. -/
def reconstruct : List Str → Except Err Str
  | [] => .error .indexError
  | h :: t => signJoin h t

/-- Lines 174-175: split the input into terms and keep those with
`len(w) > 1`. -/
def simpTerms (input : Str) : List Str :=
  (splitOnChar ' ' (replaceAll (str "- ") (str "-") input)).filter
    (fun w => 1 < w.length)

/-- Lines 182-184: bump the count of one factor in the frequency map
(`dict[v] += 1` / `dict[v] = 1`), modelled as an insertion-ordered
association list. -/
def bumpFreq (d : List (Str × Nat)) (v : Str) : List (Str × Nat) :=
  if d.any (fun p => p.1 == v) then
    d.map (fun p => if p.1 == v then (p.1, p.2 + 1) else p)
  else d ++ [(v, 1)]

/-- Line 180: the factors of one term, `w.replace('-','').split('*')`. -/
def termVars (w : Str) : List Str :=
  splitOnChar '*' (replaceAll ['-'] [] w)

/-- Lines 178-184: the factor-frequency map over the retained terms. -/
def freqOf (s : List Str) : List (Str × Nat) :=
  s.foldl (fun d w => (termVars w).foldl bumpFreq d) []

/-- Lines 186-191: fold over `dict.items()` keeping the first strictly
larger count, starting from `('', 0)`. -/
def bestVarOf (input : Str) : Str :=
  ((freqOf (simpTerms input)).foldl
    (fun best p => if best.2 < p.2 then p else best) ([], 0)).1

/-- Lines 193-200: terms containing `bestVar` as a substring (`in`). -/
def includeOf (input : Str) : List Str :=
  (simpTerms input).filter (fun w => occursB (bestVarOf input) w)

/-- Lines 193-200: terms not containing `bestVar`. -/
def excludeOf (input : Str) : List Str :=
  (simpTerms input).filter (fun w => !occursB (bestVarOf input) w)

/-- Line 202: `include = [removeVariable(w, bestVar) for w in include]`. -/
def strippedIncludeOf (input : Str) : List Str :=
  (includeOf input).map (fun w => removeVariable w (bestVarOf input))

/-- Lines 149-211, `simplifyExpanded(input)`, with a fuel bound on the
recursion depth; `Err.outOfFuel` for every fuel value means the Python
function never returns (infinite recursion).  Order of effects follows the
source: empty-input early return (line 150), the `bestVar[0]` access (line
205, `IndexError` when the frequency map is empty), the bracket content —
`simplifyExpanded(reconstruct(include))` when `bestVar[0]` is a digit,
plain `reconstruct(include)` otherwise (lines 205-206) — and finally the
`exclude` recursion (lines 209-210). -/
def simplifyF : Nat → Str → Except Err Str
  | 0, _ => .error .outOfFuel
  | n + 1, input =>
    if input.length = 0 then .ok []
    else
      match bestVarOf input with
      | [] => .error .indexError
      | b :: bs =>
        match (if b.isDigit then
                 match reconstruct (strippedIncludeOf input) with
                 | .error e => .error e
                 | .ok r => simplifyF n r
               else reconstruct (strippedIncludeOf input)) with
        | .error e => .error e
        | .ok inner =>
          if (excludeOf input).length = 0 then
            .ok ((b :: bs) ++ str "*( " ++ inner ++ str " )")
          else
            match reconstruct (excludeOf input) with
            | .error e => .error e
            | .ok r2 =>
              match simplifyF n r2 with
              | .error e => .error e
              | .ok e2 =>
                .ok ((b :: bs) ++ str "*( " ++ inner ++ str " )" ++
                     str " + " ++ e2)

/-- Helper: on the input `"12"` the chosen factor is the whole term,
`removeVariable` strips nothing, and the digit branch recurses on the
identical input, so no recursion budget suffices. -/
theorem simplify12_out_of_fuel :
    ∀ n, simplifyF n (str "12") = .error .outOfFuel := by
  intro n
  induction n with
  | zero => rfl
  | succ n ih =>
    show simplifyF (n + 1) (str "12") = _
    simp only [simplifyF]
    rw [show bestVarOf (str "12") = '1' :: str "2" from by decide]
    simp only [show ('1').isDigit = true from rfl, if_true]
    rw [show reconstruct (strippedIncludeOf (str "12")) = .ok (str "12") from by decide]
    simp only [ih]
    decide

/-- C1: the Common-Factor Simplifier does not preserve the denoted
polynomial.  On the spec's own small case `"a*b a*c d"` (terms
`["a*b","a*c","d"]` space-joined) the length-1 term `d` is silently
dropped by the `len(w) > 1` filter (line 175): the output is
`"a*( b + c )"`, which contains no `d` although `d` is a term of the
input (at `a = b = c = d = 1` the input denotes `3`, the output `2`). -/
theorem C1_simplify_drops_term :
    simplifyF 1 (str "a*b a*c d") = .ok (str "a*( b + c )") ∧
      'd' ∈ str "a*b a*c d" ∧ 'd' ∉ str "a*( b + c )" := by decide

/-- C2: on the expression `"x*a*b y*a*a*b -c*x*d"` with key `"x"`,
`extractVarEq` returns `"a*b - c**d"`, not the `"a*b - c*d"` promised by
the claim and by the function's own docstring (line 100): deleting an
interior key leaves the two neighbouring `'*'` separators doubled and the
clean-up of lines 119-124 never repairs an interior `"**"`. -/
theorem C2_extract_interior_key :
    extractVarEq (str "x*a*b y*a*a*b -c*x*d") (str "x") = .ok (str "a*b - c**d") ∧
      str "a*b - c**d" ≠ str "a*b - c*d" := by decide

/-- C3: the recursion of `simplifyExpanded` does not always shrink the
term set and the function does not terminate on every input: on `"12"`
the stripped include group equals the full term set (the factor `"12"` is
the whole term, so none of `removeVariable`'s patterns occurs) and the
call diverges for every recursion budget. -/
theorem C3_no_strict_decrease_no_termination :
    strippedIncludeOf (str "12") = simpTerms (str "12") ∧
      ∀ n, simplifyF n (str "12") = .error .outOfFuel :=
  ⟨by decide, simplify12_out_of_fuel⟩

/-- C9: on the input `"12"` the chosen most-frequent factor is the whole
term `"12"`, `removeVariable` finds none of its three patterns and
returns the term unchanged, the digit branch recurses on the reconstructed
include group which is again exactly `"12"`, and `simplifyExpanded` never
returns (error for every fuel bound). -/
theorem C9_simplify_diverges_on_12 :
    bestVarOf (str "12") = str "12" ∧
      removeVariable (str "12") (str "12") = str "12" ∧
      reconstruct (strippedIncludeOf (str "12")) = .ok (str "12") ∧
      ∀ n, simplifyF n (str "12") = .error .outOfFuel :=
  ⟨by decide, by decide, by decide, simplify12_out_of_fuel⟩

/-- C10 counterexample: `"- a"` is a non-empty input all of whose
space-separated terms have length at most 1, yet `simplifyExpanded`
returns a string: the `replace('- ','-')` of line 174 first glues the
two length-1 terms into the single term `"-a"`, so the length filter does
not empty the term list and no out-of-range access happens. -/
theorem C10_counterexample :
    str "- a" ≠ [] ∧
      (∀ w ∈ splitOnChar ' ' (str "- a"), w.length ≤ 1) ∧
      simplifyF 1 (str "- a") = .ok (str "a*( -a )") := by decide

/-- C4 counterexample: with expression `"x*x*a"` and key `"x"` the key
occurs twice in the term; only the first occurrence is deleted (line 112),
so the returned string `"x*a"` still contains the key token. -/
theorem C4_counterexample :
    extractVarEq (str "x*x*a") (str "x") = .ok (str "x*a") ∧
      str "x" <:+: str "x*a" := by decide

/-- C6 counterexample: with the empty key, the term `"ax"` of
`"ab ax"` is discarded although it is not a bare single-character term —
line 110 drops every term containing an `'x'`/`'y'`/`'z'` character
anywhere, not only trivial placeholder terms. -/
theorem C6_counterexample :
    extractVarEq (str "ab ax") (str "") = .ok (str "ab") ∧
      str "ax" ∈ extractTerms (str "ab ax") ∧
      (str "ax").length ≠ 1 ∧ ¬ str "ax" <:+: str "ab" := by decide

/-- C5 counterexample: for `"a*bb*cc a*bb*dd a*ee"` the chosen factor is
the non-digit `"a"` and the emitted bracket content is the plain
reconstruction `"bb*cc + bb*dd + ee"` of the stripped include group —
not its recursive simplification, which is the different string
`"bb*( cc + dd ) + ee*( ee )"`. -/
theorem C5_counterexample :
    bestVarOf (str "a*bb*cc a*bb*dd a*ee") = str "a" ∧
      simplifyF 2 (str "a*bb*cc a*bb*dd a*ee") =
        .ok (str "a*( bb*cc + bb*dd + ee )") ∧
      reconstruct (strippedIncludeOf (str "a*bb*cc a*bb*dd a*ee")) =
        .ok (str "bb*cc + bb*dd + ee") ∧
      simplifyF 3 (str "bb*cc + bb*dd + ee") =
        .ok (str "bb*( cc + dd ) + ee*( ee )") ∧
      str "bb*cc + bb*dd + ee" ≠ str "bb*( cc + dd ) + ee*( ee )" := by decide

theorem isPrefixOf_eq_true_iff (p s : Str) : p.isPrefixOf s = true ↔ p <+: s :=
  List.isPrefixOf_iff_prefix

theorem findSub_eq_none {p s : Str} (h : ¬ p <:+: s) : findSub p s = none := by
  induction s with
  | nil =>
    have hp : p ≠ [] := by
      rintro rfl
      exact h ⟨[], [], rfl⟩
    simp [findSub, hp]
  | cons a rest ih =>
    rw [List.infix_cons_iff] at h
    push_neg at h
    have h1 : p.isPrefixOf (a :: rest) = false := by
      rw [← Bool.not_eq_true]
      exact fun hb => h.1 ((isPrefixOf_eq_true_iff p (a :: rest)).mp hb)
    simp [findSub, h1, ih h.2]

theorem findSub_some_decomp {p : Str} :
    ∀ {s : Str} {i : Nat}, findSub p s = some i →
      s = s.take i ++ p ++ s.drop (i + p.length) := by
  intro s
  induction s with
  | nil =>
    intro i h
    by_cases hp : p = []
    · subst hp
      simp [findSub] at h
      simp [← h]
    · simp [findSub, hp] at h
  | cons a rest ih =>
    intro i h
    rw [show findSub p (a :: rest) =
          if p.isPrefixOf (a :: rest) then some 0
          else (findSub p rest).map (· + 1) from rfl] at h
    by_cases hpre : p.isPrefixOf (a :: rest)
    · rw [if_pos hpre] at h
      obtain rfl : (0 : Nat) = i := Option.some.inj h
      obtain ⟨t, ht⟩ := (isPrefixOf_eq_true_iff _ _).mp hpre
      simp only [List.take_zero, List.nil_append, Nat.zero_add]
      rw [← ht, List.drop_left]
    · rw [if_neg hpre] at h
      obtain ⟨j, hj, rfl⟩ : ∃ j, findSub p rest = some j ∧ i = j + 1 := by
        cases hfr : findSub p rest with
        | none => rw [hfr] at h; simp at h
        | some j => rw [hfr] at h; simp at h; exact ⟨j, rfl, h.symm⟩
      have hr := ih hj
      calc a :: rest
          = a :: (rest.take j ++ p ++ rest.drop (j + p.length)) := by rw [← hr]
        _ = (a :: rest).take (j + 1) ++ p ++ (a :: rest).drop (j + 1 + p.length) := by
            rw [List.take_succ_cons]
            rw [show j + 1 + p.length = (j + p.length) + 1 by omega]
            rw [List.drop_succ_cons]
            simp [List.append_assoc]

theorem findSub_isSome_of_substr {p s : Str} (h : p <:+: s) :
    (findSub p s).isSome = true := by
  obtain ⟨u, t, rfl⟩ := h
  induction u with
  | nil =>
    cases hp : p with
    | nil => cases t <;> simp [findSub]
    | cons c p2 =>
      have : p.isPrefixOf (p ++ t) = true :=
        (isPrefixOf_eq_true_iff _ _).mpr ⟨t, rfl⟩
      rw [hp] at this
      simp [findSub, this]
  | cons a u2 ih =>
    show (findSub p ((a :: u2) ++ p ++ t)).isSome = true
    rw [show (a :: u2) ++ p ++ t = a :: (u2 ++ p ++ t) by simp]
    rw [show findSub p (a :: (u2 ++ p ++ t)) =
          if p.isPrefixOf (a :: (u2 ++ p ++ t)) then some 0
          else (findSub p (u2 ++ p ++ t)).map (· + 1) from rfl]
    by_cases hpre : p.isPrefixOf (a :: (u2 ++ p ++ t))
    · rw [if_pos hpre]
      rfl
    · rw [if_neg hpre]
      rcases Option.isSome_iff_exists.mp ih with ⟨j, hj⟩
      rw [hj]
      rfl

theorem occursB_iff_substr (p s : Str) : occursB p s = true ↔ p <:+: s := by
  constructor
  · intro h
    rw [occursB, Option.isSome_iff_exists] at h
    obtain ⟨i, hi⟩ := h
    exact ⟨s.take i, s.drop (i + p.length), (findSub_some_decomp hi).symm⟩
  · exact fun h => findSub_isSome_of_substr h

theorem repSkip_mem {p r : Str} {x : Char} :
    ∀ (s : Str) (k : Nat), x ∈ repSkip p r k s → x ∈ r ∨ x ∈ s := by
  intro s
  induction s with
  | nil => intro k h; simp [repSkip] at h
  | cons a rest ih =>
    intro k h
    cases k with
    | zero =>
      rw [show repSkip p r 0 (a :: rest) =
            if p ≠ [] ∧ p.isPrefixOf (a :: rest) then
              r ++ repSkip p r (p.length - 1) rest
            else a :: repSkip p r 0 rest from rfl] at h
      by_cases hc : p ≠ [] ∧ p.isPrefixOf (a :: rest)
      · rw [if_pos hc] at h
        rcases List.mem_append.mp h with hx | hx
        · exact Or.inl hx
        · rcases ih _ hx with hr | hs
          · exact Or.inl hr
          · exact Or.inr (List.mem_cons_of_mem a hs)
      · rw [if_neg hc] at h
        rcases List.mem_cons.mp h with rfl | hx
        · exact Or.inr (List.mem_cons_self _ _)
        · rcases ih _ hx with hr | hs
          · exact Or.inl hr
          · exact Or.inr (List.mem_cons_of_mem a hs)
    | succ k =>
      rw [show repSkip p r (k + 1) (a :: rest) = repSkip p r k rest from rfl] at h
      rcases ih _ h with hr | hs
      · exact Or.inl hr
      · exact Or.inr (List.mem_cons_of_mem a hs)

theorem replaceAll_mem {p r s : Str} {x : Char} (h : x ∈ replaceAll p r s) :
    x ∈ r ∨ x ∈ s :=
  repSkip_mem s 0 h

theorem replaceAll_head_pat {c : Char} {p2 r : Str} :
    ∀ s : Str, c ∉ s → replaceAll (c :: p2) r s = s := by
  intro s
  induction s with
  | nil => intro _; rfl
  | cons a rest ih =>
    intro h
    have hc : ¬((c :: p2) ≠ [] ∧ (c :: p2).isPrefixOf (a :: rest)) := by
      rintro ⟨-, hb⟩
      obtain ⟨t, ht⟩ := (isPrefixOf_eq_true_iff _ _).mp hb
      have : c = a := (List.cons.inj ht).1
      exact h (this ▸ List.mem_cons_self _ _)
    show repSkip (c :: p2) r 0 (a :: rest) = a :: rest
    rw [show repSkip (c :: p2) r 0 (a :: rest) =
          if (c :: p2) ≠ [] ∧ (c :: p2).isPrefixOf (a :: rest) then
            r ++ repSkip (c :: p2) r ((c :: p2).length - 1) rest
          else a :: repSkip (c :: p2) r 0 rest from rfl]
    rw [if_neg hc]
    rw [show repSkip (c :: p2) r 0 rest = replaceAll (c :: p2) r rest from rfl]
    rw [ih (fun e => h (List.mem_cons_of_mem a e))]

theorem replaceAll_of_not_substr {p r : Str} :
    ∀ s : Str, ¬ p <:+: s → replaceAll p r s = s := by
  intro s
  induction s with
  | nil => intro _; rfl
  | cons a rest ih =>
    intro h
    rw [List.infix_cons_iff] at h
    push_neg at h
    have hc : ¬(p ≠ [] ∧ p.isPrefixOf (a :: rest)) := by
      rintro ⟨-, hb⟩
      exact h.1 ((isPrefixOf_eq_true_iff _ _).mp hb)
    show repSkip p r 0 (a :: rest) = a :: rest
    rw [show repSkip p r 0 (a :: rest) =
          if p ≠ [] ∧ p.isPrefixOf (a :: rest) then
            r ++ repSkip p r (p.length - 1) rest
          else a :: repSkip p r 0 rest from rfl]
    rw [if_neg hc]
    rw [show repSkip p r 0 rest = replaceAll p r rest from rfl]
    rw [ih h.2]

theorem splitOnChar_ne_nil (sep : Char) (s : Str) : splitOnChar sep s ≠ [] := by
  cases s with
  | nil => simp [splitOnChar]
  | cons a rest =>
    simp only [splitOnChar]
    by_cases h : a = sep
    · simp [h]
    · rw [if_neg h]
      cases splitOnChar sep rest <;> simp

theorem mem_of_mem_splitOnChar {sep x : Char} :
    ∀ {s w : Str}, w ∈ splitOnChar sep s → x ∈ w → x ∈ s := by
  intro s
  induction s with
  | nil =>
    intro w hw hx
    simp [splitOnChar] at hw
    subst hw
    cases hx
  | cons a rest ih =>
    intro w hw hx
    simp only [splitOnChar] at hw
    by_cases h : a = sep
    · rw [if_pos h] at hw
      rcases List.mem_cons.mp hw with rfl | hw2
      · cases hx
      · exact List.mem_cons_of_mem a (ih hw2 hx)
    · rw [if_neg h] at hw
      cases hsp : splitOnChar sep rest with
      | nil => exact absurd hsp (splitOnChar_ne_nil sep rest)
      | cons hh tt =>
        rw [hsp] at hw
        rcases List.mem_cons.mp hw with rfl | hw2
        · rcases List.mem_cons.mp hx with rfl | hx2
          · exact List.mem_cons_self _ _
          · have hm : hh ∈ splitOnChar sep rest := by
              rw [hsp]; exact List.mem_cons_self _ _
            exact List.mem_cons_of_mem a (ih hm hx2)
        · have hm : w ∈ splitOnChar sep rest := by
            rw [hsp]; exact List.mem_cons_of_mem _ hw2
          exact List.mem_cons_of_mem a (ih hm hx)

theorem sep_not_mem_splitOnChar {sep : Char} :
    ∀ {s w : Str}, w ∈ splitOnChar sep s → sep ∉ w := by
  intro s
  induction s with
  | nil =>
    intro w hw
    simp [splitOnChar] at hw
    subst hw
    simp
  | cons a rest ih =>
    intro w hw
    simp only [splitOnChar] at hw
    by_cases h : a = sep
    · rw [if_pos h] at hw
      rcases List.mem_cons.mp hw with rfl | hw2
      · simp
      · exact ih hw2
    · rw [if_neg h] at hw
      cases hsp : splitOnChar sep rest with
      | nil => exact absurd hsp (splitOnChar_ne_nil sep rest)
      | cons hh tt =>
        rw [hsp] at hw
        rcases List.mem_cons.mp hw with rfl | hw2
        · intro hmem
          rcases List.mem_cons.mp hmem with rfl | hx2
          · exact h rfl
          · have hm : hh ∈ splitOnChar sep rest := by
              rw [hsp]; exact List.mem_cons_self _ _
            exact ih hm hx2
        · have hm : w ∈ splitOnChar sep rest := by
            rw [hsp]; exact List.mem_cons_of_mem _ hw2
          exact ih hm

/-- C8: for a non-empty key, if no term of the expanded expression
contains the key as a substring, `extractVarEq` returns the empty string
(a normal "coefficient is zero" result, not an error). -/
theorem C8_key_absent_gives_empty (expr key : Str) (hk : key ≠ [])
    (h : ∀ w ∈ extractTerms expr, ¬ key <:+: w) :
    extractVarEq expr key = .ok [] := by
  have hkl : ¬ key.length = 0 := by
    simpa [List.length_eq_zero] using hk
  have hvar : (extractTerms expr).filterMap (keyRemove key) = [] := by
    rw [List.filterMap_eq_nil_iff]
    intro w hw
    rw [keyRemove, findSub_eq_none (h w hw)]
  simp only [extractVarEq]
  rw [if_neg hkl, hvar]
  simp

/-- C8 witness: extracting the key `"q"` from `"a*b -c*d"`, which has no
term containing `q`, yields the empty string. -/
theorem C8_witness : extractVarEq (str "a*b -c*d") (str "q") = .ok [] :=
  C8_key_absent_gives_empty (str "a*b -c*d") (str "q") (by decide) (by decide)

/-- C10 amended: for every non-empty input with no `"- "` substring whose
space-separated terms all have length at most 1, the `len(w) > 1` filter
empties the term list, the frequency map is empty, `bestVar` is the empty
string, and evaluating `bestVar[0]` (line 205) is an out-of-range index
access, for every recursion budget. -/
theorem C10_amended (input : Str) (n : Nat) (h1 : input ≠ [])
    (h2 : ¬ str "- " <:+: input)
    (h3 : ∀ w ∈ splitOnChar ' ' input, w.length ≤ 1) :
    simplifyF (n + 1) input = .error .indexError := by
  have hrep : replaceAll (str "- ") (str "-") input = input :=
    replaceAll_of_not_substr input h2
  have hterms : simpTerms input = [] := by
    rw [simpTerms, hrep, List.filter_eq_nil_iff]
    intro w hw
    simp only [decide_eq_true_eq, Nat.not_lt]
    exact h3 w hw
  have hbv : bestVarOf input = [] := by
    rw [bestVarOf, hterms]
    rfl
  have hlen : ¬ input.length = 0 := by
    simpa [List.length_eq_zero] using h1
  simp only [simplifyF]
  rw [if_neg hlen, hbv]

/-- C10 amended witness: `"a b"` is non-empty, has no `"- "`, and both
terms have length 1, so the call is an out-of-range index access. -/
theorem C10_amended_witness : simplifyF 1 (str "a b") = .error .indexError :=
  C10_amended (str "a b") 0 (by decide) (by decide) (by decide)

theorem mapME_ok_of_id {g : Str → Except Err Str} :
    ∀ {L : List Str}, (∀ w ∈ L, g w = .ok w) → mapME g L = .ok L := by
  intro L
  induction L with
  | nil => intro _; rfl
  | cons a as ih =>
    intro h
    rw [show mapME g (a :: as) =
          (match g a with
           | .error e => .error e
           | .ok b =>
             match mapME g as with
             | .error e => .error e
             | .ok bs => .ok (b :: bs)) from rfl]
    rw [h a (List.mem_cons_self _ _), ih (fun w hw => h w (List.mem_cons_of_mem a hw))]

theorem mapME_ok_mem {g : Str → Except Err Str} :
    ∀ {L L2 : List Str}, mapME g L = .ok L2 →
      ∀ w2 ∈ L2, ∃ w ∈ L, g w = .ok w2 := by
  intro L
  induction L with
  | nil =>
    intro L2 h w2 hw2
    rw [show mapME g [] = .ok [] from rfl] at h
    obtain rfl : ([] : List Str) = L2 := Except.ok.inj h
    cases hw2
  | cons a as ih =>
    intro L2 h w2 hw2
    rw [show mapME g (a :: as) =
          (match g a with
           | .error e => .error e
           | .ok b =>
             match mapME g as with
             | .error e => .error e
             | .ok bs => .ok (b :: bs)) from rfl] at h
    cases hga : g a with
    | error e => rw [hga] at h; cases h
    | ok b =>
      rw [hga] at h
      cases hmm : mapME g as with
      | error e => rw [hmm] at h; cases h
      | ok bs =>
        rw [hmm] at h
        obtain rfl : b :: bs = L2 := Except.ok.inj h
        rcases List.mem_cons.mp hw2 with rfl | hw2b
        · exact ⟨a, List.mem_cons_self _ _, hga⟩
        · obtain ⟨w, hwm, hwg⟩ := ih hmm w2 hw2b
          exact ⟨w, List.mem_cons_of_mem a hwm, hwg⟩

theorem mapME_append_mid {g : Str → Except Err Str} {x y : Str} {L2 : List Str}
    (hx : g x = .ok y) (h2 : ∀ f ∈ L2, g f = .ok f) :
    ∀ {L1 : List Str}, (∀ f ∈ L1, g f = .ok f) →
      mapME g (L1 ++ x :: L2) = .ok (L1 ++ y :: L2) := by
  intro L1
  induction L1 with
  | nil =>
    intro _
    rw [List.nil_append, List.nil_append]
    rw [show mapME g (x :: L2) =
          (match g x with
           | .error e => .error e
           | .ok b =>
             match mapME g L2 with
             | .error e => .error e
             | .ok bs => .ok (b :: bs)) from rfl]
    rw [hx, mapME_ok_of_id h2]
  | cons a as ih =>
    intro h1
    rw [List.cons_append]
    rw [show mapME g (a :: (as ++ x :: L2)) =
          (match g a with
           | .error e => .error e
           | .ok b =>
             match mapME g (as ++ x :: L2) with
             | .error e => .error e
             | .ok bs => .ok (b :: bs)) from rfl]
    rw [h1 a (List.mem_cons_self _ _),
        ih (fun f hf => h1 f (List.mem_cons_of_mem a hf))]
    rfl

theorem fixTerm_id {w : Str} (hne : w ≠ []) (hnd : w ≠ ['-'])
    (hl : w.getLast? ≠ some '*') (hh : w.head? ≠ some '*') : fixTerm w = w := by
  rw [fixTerm, if_neg hne, if_neg hnd, if_neg hl, if_neg hh]

theorem emptyKeyKeep_eq_spec : emptyKeyKeep = specEmptyKeyKeep := by
  funext w
  rw [emptyKeyKeep, specEmptyKeyKeep]
  have h2 : (!(w.any (fun ch => ch == 'x' || ch == 'y' || ch == 'z')))
      = w.all (fun ch => ch != 'x' && ch != 'y' && ch != 'z') := by
    induction w with
    | nil => rfl
    | cons a rest ih =>
      simp only [List.any_cons, List.all_cons, Bool.not_or, ih]
      cases hx : (a == 'x') <;> cases hy : (a == 'y') <;> cases hz : (a == 'z') <;>
        simp [bne, hx, hy, hz]
  rw [h2]

/-- C6 amended: with the empty key, `extractVarEq` discards exactly the
terms of length 1 together with every term containing an `'x'`, `'y'` or
`'z'` character anywhere, and retains every other term: for an arbitrary
expression — mixed discarded and retained terms included — whose retained
terms are untouched by the later clean-up and power-expansion passes, the
result is the signed re-join of precisely the terms satisfying the
spec-worded keep predicate (empty string when none survives).  The
source's line-110 filter is proved equal to that predicate in
`emptyKeyKeep_eq_spec`. -/
theorem C6_amended (expr : Str)
    (hclean : ∀ w ∈ extractTerms expr, specEmptyKeyKeep w = true →
       ¬ str "-*" <:+: w ∧ w.getLast? ≠ some '*' ∧ w.head? ≠ some '*' ∧
       expandPower w = .ok w) :
    extractVarEq expr [] =
      if (extractTerms expr).filter specEmptyKeyKeep = [] then .ok []
      else joinSigned ((extractTerms expr).filter specEmptyKeyKeep) := by
  have hfe : (extractTerms expr).filter emptyKeyKeep
      = (extractTerms expr).filter specEmptyKeyKeep := by
    rw [emptyKeyKeep_eq_spec]
  simp only [extractVarEq]
  rw [show (if (([] : Str)).length = 0 then (extractTerms expr).filter emptyKeyKeep
        else (extractTerms expr).filterMap (keyRemove []) : List Str)
      = (extractTerms expr).filter emptyKeyKeep from rfl]
  rw [hfe]
  by_cases hnil : (extractTerms expr).filter specEmptyKeyKeep = []
  · rw [hnil]
    rfl
  · rw [if_neg hnil]
    have hlz : ¬ ((extractTerms expr).filter specEmptyKeyKeep).length = 0 := by
      simpa [List.length_eq_zero] using hnil
    rw [if_neg hlz]
    have hstep : ∀ w ∈ (extractTerms expr).filter specEmptyKeyKeep,
        fixTerm (replaceAll (str "-*") (str "-") w) = w := by
      intro w hw
      obtain ⟨hwm, hwk⟩ := List.mem_filter.mp hw
      obtain ⟨hds, hl, hh, hexpw⟩ := hclean w hwm hwk
      have hwne : w ≠ [] := by
        rintro rfl
        exact absurd hexpw (by decide)
      have hwnd : w ≠ ['-'] := by
        rintro rfl
        rw [specEmptyKeyKeep] at hwk
        simp at hwk
      rw [replaceAll_of_not_substr w hds]
      exact fixTerm_id hwne hwnd hl hh
    have hmaps : (((extractTerms expr).filter specEmptyKeyKeep).map
        (replaceAll (str "-*") (str "-"))).map fixTerm
        = (extractTerms expr).filter specEmptyKeyKeep := by
      rw [List.map_map]
      have hcg := List.map_congr_left (f := fixTerm ∘ replaceAll (str "-*") (str "-"))
        (g := id) (fun w hw => hstep w hw)
      rw [hcg, List.map_id]
    have hexp : mapME expandPower ((extractTerms expr).filter specEmptyKeyKeep)
        = .ok ((extractTerms expr).filter specEmptyKeyKeep) :=
      mapME_ok_of_id (fun w hw =>
        (hclean w (List.mem_filter.mp hw).1 (List.mem_filter.mp hw).2).2.2.2)
    rw [hmaps, hexp]

/-- C6 amended witness: the mixed expression `"ab qx y cd"`: the term
`"qx"` (contains `'x'`) and the length-1 term `"y"` are discarded while
`"ab"` and `"cd"` are retained and re-joined. -/
theorem C6_amended_witness :
    extractVarEq (str "ab qx y cd") [] = .ok (str "ab + cd") := by
  have h := C6_amended (str "ab qx y cd") (by decide)
  exact h.trans (by decide)

theorem splitOnChar_no_sep {sep : Char} :
    ∀ {x : Str}, sep ∉ x → splitOnChar sep x = [x] := by
  intro x
  induction x with
  | nil => intro _; rfl
  | cons a rest ih =>
    intro h
    have ha : ¬ a = sep := fun e => h (e ▸ List.mem_cons_self _ _)
    simp only [splitOnChar, if_neg ha]
    rw [ih (fun e => h (List.mem_cons_of_mem a e))]

theorem splitOnChar_append_sep {sep : Char} :
    ∀ {x : Str}, sep ∉ x → ∀ rest : Str,
      splitOnChar sep (x ++ sep :: rest) = x :: splitOnChar sep rest := by
  intro x
  induction x with
  | nil =>
    intro _ rest
    simp [splitOnChar]
  | cons a x2 ih =>
    intro h rest
    have ha : ¬ a = sep := fun e => h (e ▸ List.mem_cons_self _ _)
    simp only [List.cons_append, splitOnChar, if_neg ha, List.append_eq]
    rw [ih (fun e => h (List.mem_cons_of_mem a e)) rest]

theorem splitOnChar_cons_ne {sep c : Char} (hc : ¬ c = sep) {s : Str} {h : Str}
    {t : List Str} (hs : splitOnChar sep s = h :: t) :
    splitOnChar sep (c :: s) = (c :: h) :: t := by
  simp only [splitOnChar, if_neg hc, hs]

theorem splitOnChar_joinSep {sep : Char} :
    ∀ fs : List Str, fs ≠ [] → (∀ f ∈ fs, sep ∉ f) →
      splitOnChar sep (joinSep [sep] fs) = fs := by
  intro fs
  induction fs with
  | nil => intro h _; cases h rfl
  | cons x xs ih =>
    intro _ hall
    cases xs with
    | nil =>
      show splitOnChar sep (joinSep [sep] [x]) = [x]
      rw [show joinSep [sep] [x] = x from rfl]
      exact splitOnChar_no_sep (hall x (List.mem_cons_self _ _))
    | cons y ys =>
      have hj : joinSep [sep] (x :: y :: ys) = x ++ sep :: joinSep [sep] (y :: ys) := by
        rw [show joinSep [sep] (x :: y :: ys) = x ++ [sep] ++ joinSep [sep] (y :: ys) from rfl]
        simp
      rw [hj, splitOnChar_append_sep (hall x (List.mem_cons_self _ _)),
          ih (by simp) (fun f hf => hall f (List.mem_cons_of_mem x hf))]

theorem foldl_star :
    ∀ pieces : List Str, pieces ≠ [] → ∀ acc : Str,
      pieces.foldl (fun a p => a ++ p ++ ['*']) acc =
        acc ++ joinSep ['*'] pieces ++ ['*'] := by
  intro pieces
  induction pieces with
  | nil => intro h; cases h rfl
  | cons x xs ih =>
    intro _ acc
    cases xs with
    | nil => simp [joinSep]
    | cons y ys =>
      rw [List.foldl_cons, ih (by simp) (acc ++ x ++ ['*'])]
      rw [show joinSep ['*'] (x :: y :: ys) = x ++ ['*'] ++ joinSep ['*'] (y :: ys) from rfl]
      simp [List.append_assoc]

theorem joinSep_replicate_step (sep v : Str) :
    ∀ n, joinSep sep (List.replicate (n + 2) v) =
      joinSep sep (List.replicate (n + 1) v) ++ sep ++ v := by
  intro n
  induction n with
  | zero => simp [joinSep, List.replicate, List.append_assoc]
  | succ n ih =>
    have h1 : joinSep sep (List.replicate (n + 3) v)
        = v ++ sep ++ joinSep sep (List.replicate (n + 2) v) := rfl
    have h2 : joinSep sep (List.replicate (n + 2) v)
        = v ++ sep ++ joinSep sep (List.replicate (n + 1) v) := rfl
    rw [h1]
    conv_lhs => rw [ih]
    rw [h2]
    simp [List.append_assoc]

theorem range_foldl_join (v : Str) :
    ∀ m, (List.range m).foldl (fun acc _ => acc ++ ['*'] ++ v) v =
      joinSep ['*'] (List.replicate (m + 1) v) := by
  intro m
  induction m with
  | zero => simp [joinSep]
  | succ m ih =>
    rw [List.range_succ, List.foldl_append, ih, List.foldl_cons, List.foldl_nil]
    exact (joinSep_replicate_step ['*'] v m).symm

theorem expandFactor_passthrough {f : Str}
    (h : f.length < 3 ∨ f.get? (f.length - 2) ≠ some '^') :
    expandFactor f = .ok f := by
  rw [expandFactor, if_neg]
  rintro ⟨h3, hc⟩
  rcases h with h | h
  · omega
  · exact h hc

theorem expandFactor_caret {v : Str} {d : Char} (hv : v ≠ [])
    (hd : d.isDigit = true) (hk : 49 ≤ d.toNat) :
    expandFactor (v ++ ['^', d]) =
      .ok (joinSep ['*'] (List.replicate (d.toNat - 48) v)) := by
  have hlen : (v ++ ['^', d]).length = v.length + 2 := by simp
  have h3 : 3 ≤ (v ++ ['^', d]).length := by
    have : 0 < v.length := List.length_pos.mpr hv
    omega
  have hget : (v ++ ['^', d]).get? ((v ++ ['^', d]).length - 2) = some '^' := by
    rw [hlen, show v.length + 2 - 2 = v.length by omega,
        List.get?_append_right (Nat.le_refl _)]
    simp
  have htake : (v ++ ['^', d]).take ((v ++ ['^', d]).length - 2) = v := by
    rw [hlen, show v.length + 2 - 2 = v.length by omega]
    exact List.take_left v ['^', d]
  have hlast : (v ++ ['^', d]).getLast? = some d := by
    rw [show v ++ ['^', d] = (v ++ ['^']) ++ [d] by simp]
    exact List.getLast?_concat _
  rw [expandFactor, if_pos ⟨h3, hget⟩, hlast]
  simp only []
  rw [if_pos hd, htake]
  rw [range_foldl_join v (d.toNat - 48 - 1),
      show d.toNat - 48 - 1 + 1 = d.toNat - 48 by omega]

/-- C7: `expandPower` on a well-formed term with exactly one exponentiated
factor `v^k` (`k` a digit 1..9): that factor becomes `v` repeated `k`
times joined by `'*'`, a leading `'-'` sign is stripped before processing
and re-attached verbatim (it does not disturb the exponent parsing of the
first factor), and every other factor — shorter than 3 characters or with
a second-to-last character that is not a caret — passes through
unchanged. -/
theorem C7_expandPower (sgn : Str) (pre post : List Str) (v : Str) (d : Char)
    (hs : sgn = [] ∨ sgn = ['-'])
    (hd : d ∈ ['1', '2', '3', '4', '5', '6', '7', '8', '9'])
    (hv : v ≠ []) (hvs : '*' ∉ v)
    (hpp : ∀ f ∈ pre ++ post,
      f ≠ [] ∧ '*' ∉ f ∧ (f.length < 3 ∨ f.get? (f.length - 2) ≠ some '^'))
    (hfirst : ∀ f0 : Str, (pre ++ (v ++ ['^', d]) :: post).head? = some f0 →
      f0.head? ≠ some '-') :
    expandPower (sgn ++ joinSep ['*'] (pre ++ (v ++ ['^', d]) :: post)) =
      .ok (sgn ++ joinSep ['*']
        (pre ++ (joinSep ['*'] (List.replicate (d.toNat - 48) v)) :: post)) := by
  have hdig : d.isDigit = true := by fin_cases hd <;> rfl
  have hk : 49 ≤ d.toNat := by fin_cases hd <;> decide
  have hdstar : d ≠ '*' := by fin_cases hd <;> decide
  have hvkne : v ++ ['^', d] ≠ [] := by simp
  have hvkstar : '*' ∉ v ++ ['^', d] := by
    intro hmem
    rcases List.mem_append.mp hmem with h | h
    · exact hvs h
    · rcases List.mem_cons.mp h with h1 | h1
      · exact absurd h1 (by decide)
      · exact hdstar (List.mem_singleton.mp h1).symm
  have hallstar : ∀ f ∈ pre ++ (v ++ ['^', d]) :: post, '*' ∉ f := by
    intro f hf
    rcases List.mem_append.mp hf with h | h
    · exact (hpp f (List.mem_append_left post h)).2.1
    · rcases List.mem_cons.mp h with rfl | h
      · exact hvkstar
      · exact (hpp f (List.mem_append_right pre h)).2.1
  have hfs_ne : pre ++ (v ++ ['^', d]) :: post ≠ [] := by simp
  have hsplit : splitOnChar '*' (joinSep ['*'] (pre ++ (v ++ ['^', d]) :: post)) =
      pre ++ (v ++ ['^', d]) :: post :=
    splitOnChar_joinSep _ hfs_ne hallstar
  obtain ⟨f0, fsrest, hfs⟩ :
      ∃ f0 fsrest, pre ++ (v ++ ['^', d]) :: post = f0 :: fsrest :=
    match hcase : pre ++ (v ++ ['^', d]) :: post, hfs_ne with
    | f0 :: fsrest, _ => ⟨f0, fsrest, rfl⟩
  have hf0ne : f0 ≠ [] := by
    cases pre with
    | nil =>
      rw [List.nil_append] at hfs
      rw [← (List.cons.inj hfs).1]
      exact hvkne
    | cons p0 ps =>
      rw [List.cons_append] at hfs
      rw [← (List.cons.inj hfs).1]
      exact (hpp p0 (List.mem_append_left post (List.mem_cons_self _ _))).1
  obtain ⟨c, f2, hf0⟩ := List.exists_cons_of_ne_nil hf0ne
  subst hf0
  have hcne : ¬ c = '-' := by
    have h1 := hfirst (c :: f2) (by rw [hfs]; rfl)
    intro e
    exact h1 (by rw [e]; rfl)
  have hmap : mapME expandFactor (pre ++ (v ++ ['^', d]) :: post) =
      .ok (pre ++ (joinSep ['*'] (List.replicate (d.toNat - 48) v)) :: post) :=
    mapME_append_mid (expandFactor_caret hv hdig hk)
      (fun f hf => expandFactor_passthrough (hpp f (List.mem_append_right pre hf)).2.2)
      (fun f hf => expandFactor_passthrough (hpp f (List.mem_append_left post hf)).2.2)
  have hpieces_ne :
      pre ++ (joinSep ['*'] (List.replicate (d.toNat - 48) v)) :: post ≠ [] := by
    simp
  rcases hs with rfl | rfl
  · rw [List.nil_append, List.nil_append]
    simp only [expandPower]
    rw [hsplit, hfs]
    simp only []
    rw [if_neg hcne]
    simp only []
    rw [← hfs, hmap]
    simp only []
    rw [foldl_star _ hpieces_ne [], List.nil_append, List.dropLast_concat]
  · rw [show (['-'] : Str) ++ joinSep ['*'] (pre ++ (v ++ ['^', d]) :: post) =
        '-' :: joinSep ['*'] (pre ++ (v ++ ['^', d]) :: post) from rfl]
    have hconssplit :
        splitOnChar '*' ('-' :: joinSep ['*'] (pre ++ (v ++ ['^', d]) :: post)) =
          ('-' :: (c :: f2)) :: fsrest := by
      apply splitOnChar_cons_ne (by decide)
      rw [hsplit, hfs]
    simp only [expandPower]
    rw [hconssplit]
    simp only []
    rw [if_pos trivial]
    simp only []
    rw [← hfs, hmap]
    simp only []
    rw [foldl_star _ hpieces_ne ['-'], List.dropLast_concat]

/-- C7 witness: the spec's example, `expandPower("-x^3*y") = "-x*x*x*y"`. -/
theorem C7_witness : expandPower (str "-x^3*y") = .ok (str "-x*x*x*y") := by
  have h := C7_expandPower ['-'] [] [['y']] ['x'] '3' (Or.inr rfl) (by decide)
    (by decide) (by decide) (by decide)
    (by
      intro f0 hh
      obtain rfl : (['x', '^', '3'] : Str) = f0 := Option.some.inj hh
      decide)
  rw [show str "-x^3*y" =
        ['-'] ++ joinSep ['*'] ([] ++ (['x'] ++ ['^', '3']) :: [['y']]) from by decide]
  exact h.trans (by decide)

/-- C5 amended: the bracketed sub-expression emitted after `<factor>*(` is
the plain reconstruction of the include terms after removal of the chosen
factor, emitted without any recursive simplification when the factor's
token does not start with a digit; only when the token starts with a digit
does that post-removal reconstruction receive one recursive
simplification pass before emitting (lines 205-206; the include group is
replaced by its factor-stripped version at line 202, before either
branch). -/
theorem C5_amended (n : Nat) (input rec2 : Str) (b : Char) (bs : Str)
    (hne : input ≠ [])
    (hb : bestVarOf input = b :: bs)
    (hrec : reconstruct (strippedIncludeOf input) = .ok rec2) :
    (b.isDigit = false → (excludeOf input).length = 0 →
       simplifyF (n + 1) input = .ok ((b :: bs) ++ str "*( " ++ rec2 ++ str " )")) ∧
    (b.isDigit = false → ∀ r2 e2 : Str, ¬ (excludeOf input).length = 0 →
       reconstruct (excludeOf input) = .ok r2 → simplifyF n r2 = .ok e2 →
       simplifyF (n + 1) input =
         .ok ((b :: bs) ++ str "*( " ++ rec2 ++ str " )" ++ str " + " ++ e2)) ∧
    (b.isDigit = true → ∀ inner : Str, simplifyF n rec2 = .ok inner →
       (excludeOf input).length = 0 →
       simplifyF (n + 1) input = .ok ((b :: bs) ++ str "*( " ++ inner ++ str " )")) := by
  have hlen : ¬ input.length = 0 := by
    simpa [List.length_eq_zero] using hne
  refine ⟨?_, ?_, ?_⟩
  · intro hdig hexc
    simp only [simplifyF]
    rw [if_neg hlen, hb]
    simp only []
    rw [if_neg (by simp [hdig]), hrec]
    simp only []
    rw [if_pos hexc]
  · intro hdig r2 e2 hexc hr2 he2
    simp only [simplifyF]
    rw [if_neg hlen, hb]
    simp only []
    rw [if_neg (by simp [hdig]), hrec]
    simp only []
    rw [if_neg hexc, hr2]
    simp only []
    rw [he2]
  · intro hdig inner hinner hexc
    simp only [simplifyF]
    rw [if_neg hlen, hb]
    simp only []
    rw [if_pos (by simp [hdig]), hrec]
    simp only []
    rw [hinner]
    simp only []
    rw [if_pos hexc]

/-- C5 amended witness: on `"ab*cd ab*ef"` the chosen factor `"ab"` is
non-digit, the stripped include group reconstructs to `"cd + ef"`, and the
output embeds it without further simplification. -/
theorem C5_amended_witness :
    simplifyF 1 (str "ab*cd ab*ef") = .ok (str "ab*( cd + ef )") := by
  have h := (C5_amended 0 (str "ab*cd ab*ef") (str "cd + ef") 'a' (str "b")
    (by decide) (by decide) (by decide)).1 (by decide) (by decide)
  exact h.trans (by decide)

theorem singleton_substr_iff {x : Char} {w : Str} : [x] <:+: w ↔ x ∈ w := by
  constructor
  · rintro ⟨u, t, rfl⟩
    simp
  · intro h
    obtain ⟨u, t, rfl⟩ := List.append_of_mem h
    exact ⟨u, t, by simp⟩

theorem keyRemove_single {g : Char} {w w' : Str} (hcount : w.count g ≤ 1)
    (h : keyRemove [g] w = some w') : g ∉ w' := by
  rw [keyRemove] at h
  cases hfs : findSub [g] w with
  | none => rw [hfs] at h; cases h
  | some i =>
    rw [hfs] at h
    obtain rfl : w.take i ++ w.drop (i + 1) = w' := Option.some.inj h
    have hdec := findSub_some_decomp hfs
    rw [show ([g] : Str).length = 1 from rfl] at hdec
    have hcount2 : (w.take i ++ [g] ++ w.drop (i + 1)).count g ≤ 1 := by
      rw [← hdec]; exact hcount
    rw [List.count_append, List.count_append, List.count_singleton] at hcount2
    simp only [beq_self_eq_true, if_true] at hcount2
    have htz : (w.take i).count g = 0 := by omega
    have hdz : (w.drop (i + 1)).count g = 0 := by omega
    intro hmem
    rcases List.mem_append.mp hmem with hm | hm
    · exact (List.count_eq_zero.mp htz) hm
    · exact (List.count_eq_zero.mp hdz) hm

theorem fixTerm_not_mem {g : Char} (h1 : g ≠ '1') {w : Str} (h : g ∉ w) :
    g ∉ fixTerm w := by
  rw [fixTerm]
  split_ifs with hw1 hw2 hw3 hw4
  · simp [h1]
  · subst hw2
    intro hmem
    rcases List.mem_cons.mp hmem with rfl | hm
    · exact h (List.mem_cons_self _ _)
    · exact h1 (List.mem_singleton.mp hm)
  · exact fun hm => h (List.dropLast_subset w hm)
  · exact fun hm => h (List.mem_of_mem_tail hm)
  · exact h

theorem mapME_ok_ne_nil {g : Str → Except Err Str} {a : Str} {as L : List Str}
    (h : mapME g (a :: as) = .ok L) : L ≠ [] := by
  rw [show mapME g (a :: as) =
        (match g a with
         | .error e => .error e
         | .ok b =>
           match mapME g as with
           | .error e => .error e
           | .ok bs => .ok (b :: bs)) from rfl] at h
  cases hga : g a with
  | error e => rw [hga] at h; cases h
  | ok b =>
    rw [hga] at h
    cases hmm : mapME g as with
    | error e => rw [hmm] at h; cases h
    | ok bs =>
      rw [hmm] at h
      rw [← Except.ok.inj h]
      simp

theorem mem_joinSep {x : Char} (sep : Str) :
    ∀ L : List Str, x ∈ joinSep sep L → x ∈ sep ∨ ∃ l ∈ L, x ∈ l := by
  intro L
  induction L with
  | nil => intro h; cases h
  | cons a as ih =>
    intro h
    cases as with
    | nil =>
      rw [show joinSep sep [a] = a from rfl] at h
      exact Or.inr ⟨a, List.mem_cons_self _ _, h⟩
    | cons b bs =>
      rw [show joinSep sep (a :: b :: bs) = a ++ sep ++ joinSep sep (b :: bs) from rfl] at h
      rcases List.mem_append.mp h with hm | hm
      · rcases List.mem_append.mp hm with hm2 | hm2
        · exact Or.inr ⟨a, List.mem_cons_self _ _, hm2⟩
        · exact Or.inl hm2
      · rcases ih hm with hs | ⟨l, hl, hxl⟩
        · exact Or.inl hs
        · exact Or.inr ⟨l, List.mem_cons_of_mem a hl, hxl⟩

theorem expandFactor_mem {f out : Str} {x : Char}
    (h : expandFactor f = .ok out) (hmem : x ∈ out) : x ∈ f ∨ x = '*' := by
  rw [expandFactor] at h
  by_cases hcond : 3 ≤ f.length ∧ f.get? (f.length - 2) = some '^'
  · rw [if_pos hcond] at h
    cases hlast : f.getLast? with
    | none => rw [hlast] at h; cases h
    | some d =>
      rw [hlast] at h
      simp only [] at h
      by_cases hdig : d.isDigit = true
      · rw [if_pos hdig] at h
        rw [range_foldl_join] at h
        rw [← Except.ok.inj h] at hmem
        rcases mem_joinSep ['*'] _ hmem with hs | ⟨l, hl, hxl⟩
        · exact Or.inr (List.mem_singleton.mp hs)
        · have : l = f.take (f.length - 2) := List.eq_of_mem_replicate hl
          subst this
          exact Or.inl (List.mem_of_mem_take hxl)
      · rw [if_neg hdig] at h; cases h
  · rw [if_neg hcond] at h
    rw [← Except.ok.inj h] at hmem
    exact Or.inl hmem

theorem expandPower_mem {t out : Str} {x : Char} (hx : x ≠ '*')
    (h : expandPower t = .ok out) (hmem : x ∈ out) : x ∈ t := by
  have hsub : ∀ (l : List Str) (pieces : List Str) (sgn : Str),
      (∀ w ∈ l, w ∈ splitOnChar '*' t ∨ ∃ f ∈ splitOnChar '*' t, ∀ y ∈ w, y ∈ f) →
      (∀ y ∈ sgn, y ∈ t) →
      mapME expandFactor l = .ok pieces → pieces ≠ [] →
      x ∈ (pieces.foldl (fun acc p => acc ++ p ++ ['*']) sgn).dropLast → x ∈ t := by
    intro l pieces sgn hl hsgn hmm hpne hxm
    rw [foldl_star pieces hpne sgn] at hxm
    have hxm2 : x ∈ sgn ++ joinSep ['*'] pieces ++ ['*'] :=
      List.dropLast_subset _ hxm
    rcases List.mem_append.mp hxm2 with hm | hm
    · rcases List.mem_append.mp hm with hm2 | hm2
      · exact hsgn x hm2
      · rcases mem_joinSep ['*'] _ hm2 with hs | ⟨piece, hp, hxp⟩
        · exact absurd (List.mem_singleton.mp hs) hx
        · obtain ⟨w, hwl, hwok⟩ := mapME_ok_mem hmm piece hp
          have hxw : x ∈ w := by
            rcases expandFactor_mem hwok hxp with h1 | h1
            · exact h1
            · exact absurd h1 hx
          rcases hl w hwl with hw2 | ⟨f, hf, hsub2⟩
          · exact mem_of_mem_splitOnChar hw2 hxw
          · exact mem_of_mem_splitOnChar hf (hsub2 x hxw)
    · exact absurd (List.mem_singleton.mp hm) hx
  rw [expandPower] at h
  cases hsplit : splitOnChar '*' t with
  | nil => rw [hsplit] at h; cases h
  | cons f rest =>
    rw [hsplit] at h
    cases f with
    | nil => cases h
    | cons ch f2 =>
      simp only [] at h
      by_cases hch : ch = '-'
      · rw [if_pos hch] at h
        simp only [] at h
        cases hmm : mapME expandFactor (f2 :: rest) with
        | error e => rw [hmm] at h; cases h
        | ok pieces =>
          rw [hmm] at h
          refine hsub (f2 :: rest) pieces ['-'] ?_ ?_ hmm
            (mapME_ok_ne_nil hmm) ?_
          · intro w hw
            rcases List.mem_cons.mp hw with rfl | hw2
            · refine Or.inr ⟨ch :: w, ?_, fun y hy => List.mem_cons_of_mem ch hy⟩
              rw [hsplit]; exact List.mem_cons_self _ _
            · left
              rw [hsplit]; exact List.mem_cons_of_mem _ hw2
          · intro y hy
            have hy2 : y = ch := by rw [hch]; exact List.mem_singleton.mp hy
            have hwmem : (ch :: f2) ∈ splitOnChar '*' t := by
              rw [hsplit]; exact List.mem_cons_self _ _
            rw [hy2]
            exact mem_of_mem_splitOnChar hwmem (List.mem_cons_self _ _)
          · rw [← Except.ok.inj h] at hmem
            exact hmem
      · rw [if_neg hch] at h
        simp only [] at h
        cases hmm : mapME expandFactor ((ch :: f2) :: rest) with
        | error e => rw [hmm] at h; cases h
        | ok pieces =>
          rw [hmm] at h
          refine hsub ((ch :: f2) :: rest) pieces [] ?_ (by simp) hmm
            (mapME_ok_ne_nil hmm) ?_
          · intro w hw
            left
            rw [hsplit]; exact hw
          · rw [← Except.ok.inj h] at hmem
            exact hmem

theorem signJoin_not_mem {g : Char} (hsp : g ≠ ' ') (hpl : g ≠ '+') :
    ∀ (L : List Str) (acc out : Str), g ∉ acc → (∀ w ∈ L, g ∉ w) →
      signJoin acc L = .ok out → g ∉ out := by
  intro L
  induction L with
  | nil =>
    intro acc out hacc _ h
    rw [show signJoin acc [] = .ok acc from rfl] at h
    rw [← Except.ok.inj h]
    exact hacc
  | cons w ws ih =>
    intro acc out hacc hall h
    cases w with
    | nil =>
      rw [show signJoin acc ([] :: ws) = .error .indexError from rfl] at h
      cases h
    | cons ch w2 =>
      have hw := hall (ch :: w2) (List.mem_cons_self _ _)
      rw [show signJoin acc ((ch :: w2) :: ws) =
            (if ch = '-' then signJoin (acc ++ str " - " ++ w2) ws
             else signJoin (acc ++ str " + " ++ (ch :: w2)) ws) from rfl] at h
      by_cases hch : ch = '-'
      · rw [if_pos hch] at h
        refine ih (acc ++ str " - " ++ w2) out ?_
          (fun u hu => hall u (List.mem_cons_of_mem _ hu)) h
        intro hmem
        rcases List.mem_append.mp hmem with hm | hm
        · rcases List.mem_append.mp hm with hm2 | hm2
          · exact hacc hm2
          · rw [show str " - " = [' ', '-', ' '] from rfl] at hm2
            rcases List.mem_cons.mp hm2 with rfl | hm3
            · exact hsp rfl
            rcases List.mem_cons.mp hm3 with rfl | hm4
            · exact hw (by rw [hch]; exact List.mem_cons_self _ _)
            · exact hsp (List.mem_singleton.mp hm4)
        · exact hw (List.mem_cons_of_mem ch hm)
      · rw [if_neg hch] at h
        refine ih (acc ++ str " + " ++ (ch :: w2)) out ?_
          (fun u hu => hall u (List.mem_cons_of_mem _ hu)) h
        intro hmem
        rcases List.mem_append.mp hmem with hm | hm
        · rcases List.mem_append.mp hm with hm2 | hm2
          · exact hacc hm2
          · rw [show str " + " = [' ', '+', ' '] from rfl] at hm2
            rcases List.mem_cons.mp hm2 with rfl | hm3
            · exact hsp rfl
            rcases List.mem_cons.mp hm3 with rfl | hm4
            · exact hpl rfl
            · exact hsp (List.mem_singleton.mp hm4)
        · exact hw hm

/-- C4 amended: for a single-character key `c` with `c` none of `'1'`,
`'+'`, `'*'`, and an expression in which every term contains at most one
occurrence of `c`, the string returned by `extractVarEq` contains no
occurrence of the key.  (The original claim fails as soon as a term
contains the key twice — only the first occurrence is deleted — and for
multi-character keys deletion can even splice a new occurrence together,
e.g. key `"ab"` in term `"aabb"`.) -/
theorem C4_amended (expr : Str) (c : Char)
    (h1 : c ≠ '1') (h2 : c ≠ '+') (h3 : c ≠ '*')
    (hocc : ∀ w ∈ extractTerms expr, w.count c ≤ 1)
    (out : Str) (hout : extractVarEq expr [c] = .ok out) :
    c ∉ out := by
  by_cases hsp : c = ' '
  · subst hsp
    have hvar : (extractTerms expr).filterMap (keyRemove [' ']) = [] := by
      rw [List.filterMap_eq_nil_iff]
      intro w hw
      have hnm : ' ' ∉ w := sep_not_mem_splitOnChar hw
      rw [keyRemove, findSub_eq_none (fun hin => hnm (singleton_substr_iff.mp hin))]
    simp only [extractVarEq] at hout
    rw [if_neg (show ¬ ([' '] : Str).length = 0 by simp), hvar] at hout
    rw [if_pos (show ([] : List Str).length = 0 from rfl)] at hout
    rw [← Except.ok.inj hout]
    simp
  · simp only [extractVarEq] at hout
    rw [if_neg (show ¬ ([c] : Str).length = 0 by simp)] at hout
    by_cases hv0 : ((extractTerms expr).filterMap (keyRemove [c])).length = 0
    · rw [if_pos hv0] at hout
      rw [← Except.ok.inj hout]
      simp
    · rw [if_neg hv0] at hout
      have hstep1 : ∀ w' ∈ (extractTerms expr).filterMap (keyRemove [c]), c ∉ w' := by
        intro w' hw'
        obtain ⟨w, hwmem, hwk⟩ := List.mem_filterMap.mp hw'
        exact keyRemove_single (hocc w hwmem) hwk
      have hstep2 : ∀ u ∈ (((extractTerms expr).filterMap (keyRemove [c])).map
          (replaceAll (str "-*") (str "-"))).map fixTerm, c ∉ u := by
        intro u hu
        obtain ⟨u1, hu1, rfl⟩ := List.mem_map.mp hu
        obtain ⟨w', hw', rfl⟩ := List.mem_map.mp hu1
        apply fixTerm_not_mem h1
        by_cases hcm : c = '-'
        · rw [show str "-*" = '-' :: ['*'] from rfl]
          rw [replaceAll_head_pat w' (by rw [← hcm]; exact hstep1 w' hw')]
          exact hstep1 w' hw'
        · intro hmem
          rcases replaceAll_mem hmem with hr | hw
          · exact hcm (List.mem_singleton.mp hr)
          · exact hstep1 w' hw' hw
      cases hmm : mapME expandPower ((((extractTerms expr).filterMap (keyRemove [c])).map
          (replaceAll (str "-*") (str "-"))).map fixTerm) with
      | error e => rw [hmm] at hout; cases hout
      | ok var2 =>
        rw [hmm] at hout
        have hstep3 : ∀ u2 ∈ var2, c ∉ u2 := by
          intro u2 hu2
          obtain ⟨u, hu, hexp⟩ := mapME_ok_mem hmm u2 hu2
          intro hmem
          exact hstep2 u hu (expandPower_mem h3 hexp hmem)
        cases var2 with
        | nil => cases hout
        | cons hh tt =>
          exact signJoin_not_mem hsp h2 tt hh out (hstep3 hh (List.mem_cons_self _ _))
            (fun u hu => hstep3 u (List.mem_cons_of_mem _ hu)) hout

/-- C4 amended witness: expression `"a*b c*b"` with key `'b'` (one
occurrence per term) yields `"a + c"`, which contains no `'b'`. -/
theorem C4_amended_witness : 'b' ∉ str "a + c" := by
  refine C4_amended (str "a*b c*b") 'b' (by decide) (by decide) (by decide)
    (by decide) (str "a + c") (by decide)
